import Mathlib

/-!
Verification of the road-network routing engine (`route_engine.py`) of the
pregnancy-safe-route repository, as a shallow embedding in Lean 4.

Conventions of the embedding:
 - Python floats are embedded as exact rationals (`ℚ`); machine rounding of
   binary floating point is not modelled.
 - A graph node is a raw coordinate pair `(longitude, latitude)` exactly as the
   source stores shapely coordinates.
 - The great-circle helper `_haversine` is transcendental (sin/cos/atan2 over
   floats), so the graph builder is parameterised over an arbitrary distance
   function `dist : Node → Node → ℚ`; no verified property depends on the
   numeric value of the haversine formula.
 - Fallible Python code (uncaught exceptions) is embedded with `Except String`.
-/

/-- A graph node: a raw `(longitude, latitude)` coordinate pair, exactly as
`route_engine.py` uses shapely coordinates as `networkx` node keys. -/
abbrev Node := ℚ × ℚ

/-- The attribute dictionary stored on every edge by `_build_graph`:
`weight` (the segment length) and `safety_factor`. -/
structure EdgeData where
  weight : ℚ
  safety_factor : ℚ
deriving DecidableEq

/-- The `networkx.Graph` as built by `route_engine.py`: a node list (in
insertion order, no duplicates by construction) and an undirected edge list
with attributes. -/
structure Graph where
  nodes : List Node
  edges : List (Node × Node × EdgeData)
deriving DecidableEq

/-! ### String helpers (Python `in` substring test and `str.lower`) -/

/-- `leadMatch n h` is true when the character list `n` is an initial
segment of `h`. -/
def leadMatch : List Char → List Char → Bool
  | [], _ => true
  | _ :: _, [] => false
  | a :: as, b :: bs => a = b && leadMatch as bs

/-- `subMatch n h` is true when `n` occurs contiguously inside `h`;
this is Python's `n in h` on strings. -/
def subMatch (needle : List Char) : List Char → Bool
  | [] => leadMatch needle []
  | b :: bs => leadMatch needle (b :: bs) || subMatch needle bs

/-- Python's `needle in hay` substring test. -/
def strContains (hay needle : String) : Bool :=
  subMatch needle.data hay.data

/-- Python's `any(s in surface for s in keys)`. -/
def containsAnyOf (hay : String) (keys : List String) : Bool :=
  keys.any (fun k => strContains hay k)

/-- Python's `str.lower()` (ASCII case folding), written over the character
list so that it reduces inside the kernel. -/
def strLower (s : String) : String := String.mk (s.data.map Char.toLower)

/-! ### The segment classifier (`_get_safety_factor`, route_engine.py:117-144) -/

/-- Embedding of `SafeRouter._get_safety_factor`.  The Python function first
applies `str(...).lower()` to both tags; here the `str` conversion has already
happened (inputs are strings) and `.lower()` is applied explicitly. -/
def get_safety_factor (surface highway : String) : ℚ :=
  let s := strLower surface
  let h := strLower highway
  if containsAnyOf s ["paved", "asphalt", "concrete", "bitumen"] then 1
  else if containsAnyOf s ["gravel", "unpaved", "compacted", "fine_gravel"] then 13/10
  else if containsAnyOf s ["dirt", "earth", "ground", "mud", "sand"] then 9/5
  else if h ∈ ["primary", "secondary", "trunk", "motorway"] then 1
  else if h ∈ ["residential", "tertiary"] then 11/10
  else if h ∈ ["track", "path"] then 3/2
  else 6/5

/-- The classifier policy exactly as the specification words it: an ordered
rule table, first matching rule wins; case-insensitive substring match on the
surface tag, then exact match on the road-class tag, then the unknown
default 1.2.  Written independently of `get_safety_factor` so that agreement
between the two is a genuine theorem. -/
def surfaceRules : List (List String × ℚ) :=
  [ (["paved", "asphalt", "concrete", "bitumen"], 1),
    (["gravel", "unpaved", "compacted", "fine_gravel"], 13/10),
    (["dirt", "earth", "ground", "mud", "sand"], 9/5) ]

/-- Road-class fallback rules of the specification's policy table. -/
def roadClassRules : List (List String × ℚ) :=
  [ (["primary", "secondary", "trunk", "motorway"], 1),
    (["residential", "tertiary"], 11/10),
    (["track", "path"], 3/2) ]

/-- The specification's classifier policy: first matching surface rule wins,
else first matching road-class rule, else the 1.2 unknown default. -/
def classifySpec (surface highway : String) : ℚ :=
  match surfaceRules.find? (fun r => containsAnyOf (strLower surface) r.1) with
  | some r => r.2
  | none =>
    match roadClassRules.find? (fun r => decide (strLower highway ∈ r.1)) with
    | some r => r.2
    | none => 6/5

/-! ### Risk resolution and edge-cost function (route_engine.py:216-231) -/

/-- Embedding of `is_high_risk = (risk_level.lower() == 'high') or (week >= 28)`
(route_engine.py:216). -/
def is_high_risk_of (week : ℤ) (risk_level : String) : Bool :=
  decide (strLower risk_level = "high") || decide (28 ≤ week)

/-- Embedding of the inner `weight_func(u, v, d)` (route_engine.py:218-231):
the edge cost handed to the shortest-path search.  In the Lean model every
edge carries both attributes, so the dictionary defaults
(`d.get('weight', 1.0)`, `d.get('safety_factor', 1.0)`) never fire. -/
def weight_func (is_high_risk : Bool) (d : EdgeData) : ℚ :=
  let base_dist := d.weight
  let safety := d.safety_factor
  let penalty := if is_high_risk then safety ^ 3 else safety
  base_dist * penalty

/-! ### Python `round(x, n)` (decimal round-half-to-even on the embedded ℚ) -/

/-- Floor of a rational as an integer, computed directly from the numerator
and denominator with flooring integer division. -/
def ratFloor (x : ℚ) : ℤ := Int.fdiv x.num x.den

/-- Round-half-to-even to an integer, the rounding mode of Python's `round`. -/
def roundHalfEven (x : ℚ) : ℤ :=
  let f := ratFloor x
  let r := x - f
  if r < 1/2 then f
  else if 1/2 < r then f + 1
  else if f % 2 = 0 then f else f + 1

/-- Python's `round(x, n)` on the rational embedding of a float. -/
def pyRoundN (x : ℚ) (n : ℕ) : ℚ := (roundHalfEven (x * 10 ^ n) : ℚ) / 10 ^ n

/-- `round(x, 2)` as used for the reported distance and safety average. -/
def pyRound2 (x : ℚ) : ℚ := pyRoundN x 2

/-- Rounding a coordinate to 6 decimal digits, as the specification (but not
the code) prescribes for graph nodes. -/
def round6 (x : ℚ) : ℚ := pyRoundN x 6

/-! ### Python `min(list, key=f)`: first element attaining the minimum key -/

/-- Python's `min(a :: l, key=key)`: a left fold that replaces the current
best only on a strictly smaller key, so the first element attaining the
minimum wins ties. -/
def foldMinBy {α : Type} (key : α → ℚ) (a : α) (l : List α) : α :=
  l.foldl (fun best x => if key x < key best then x else best) a

/-- `foldMinBy` returns a member of the list, its key is minimal, and the
members strictly before it in the list all have strictly larger keys (it is
the first element attaining the minimum). -/
theorem foldMinBy_spec {α : Type} (key : α → ℚ) (a : α) (l : List α) :
    foldMinBy key a l ∈ a :: l ∧
    (∀ x ∈ a :: l, key (foldMinBy key a l) ≤ key x) ∧
    ∃ l₁ l₂, a :: l = l₁ ++ foldMinBy key a l :: l₂ ∧
      ∀ x ∈ l₁, key (foldMinBy key a l) < key x := by
  induction l generalizing a with
  | nil =>
    refine ⟨List.mem_singleton.mpr rfl, ?_, [], [], rfl, by simp⟩
    intro x hx
    rw [List.mem_singleton] at hx
    subst hx
    exact le_refl _
  | cons x t ih =>
    have hstep : foldMinBy key a (x :: t) =
        foldMinBy key (if key x < key a then x else a) t := rfl
    by_cases hxa : key x < key a
    · have hr : foldMinBy key a (x :: t) = foldMinBy key x t := by
        rw [hstep, if_pos hxa]
      obtain ⟨hmem, hmin, l₁, l₂, hdec, hstrict⟩ := ih x
      rw [hr]
      refine ⟨List.mem_cons_of_mem _ hmem, ?_, a :: l₁, l₂, ?_, ?_⟩
      · intro y hy
        rcases List.mem_cons.mp hy with h | h
        · subst h
          exact le_of_lt (lt_of_le_of_lt (hmin x (List.mem_cons_self _ _)) hxa)
        · exact hmin y h
      · rw [List.cons_append, ← hdec]
      · intro y hy
        rcases List.mem_cons.mp hy with h | h
        · subst h
          exact lt_of_le_of_lt (hmin x (List.mem_cons_self _ _)) hxa
        · exact hstrict y h
    · have hr : foldMinBy key a (x :: t) = foldMinBy key a t := by
        rw [hstep, if_neg hxa]
      have hax : key a ≤ key x := le_of_not_lt hxa
      obtain ⟨hmem, hmin, l₁, l₂, hdec, hstrict⟩ := ih a
      rw [hr]
      refine ⟨?_, ?_, ?_⟩
      · rcases List.mem_cons.mp hmem with h | h
        · rw [h]
          exact List.mem_cons_self _ _
        · exact List.mem_cons_of_mem _ (List.mem_cons_of_mem _ h)
      · intro y hy
        rcases List.mem_cons.mp hy with h | h
        · rw [h]
          exact hmin a (List.mem_cons_self _ _)
        · rcases List.mem_cons.mp h with h' | h'
          · rw [h']
            exact le_trans (hmin a (List.mem_cons_self _ _)) hax
          · exact hmin y (List.mem_cons_of_mem _ h')
      · cases l₁ with
        | nil =>
          rw [List.nil_append] at hdec
          obtain ⟨h1, h2⟩ := List.cons.inj hdec
          refine ⟨[], x :: t, ?_, by simp⟩
          rw [List.nil_append, ← h1]
        | cons b l₁' =>
          rw [List.cons_append] at hdec
          obtain ⟨hb, ht⟩ := List.cons.inj hdec
          subst hb
          have hra : key (foldMinBy key a t) < key a :=
            hstrict a (List.mem_cons_self _ _)
          refine ⟨a :: x :: l₁', l₂, ?_, ?_⟩
          · rw [List.cons_append, List.cons_append, ← ht]
          · intro y hy
            rcases List.mem_cons.mp hy with h | h
            · subst h
              exact hra
            · rcases List.mem_cons.mp h with h' | h'
              · subst h'
                exact lt_of_lt_of_le hra hax
              · exact hstrict y (List.mem_cons_of_mem _ h')

/-! ### Nearest-node lookup (`find_nearest_node`, route_engine.py:170-179) -/

/-- The key minimised by `find_nearest_node`: planar squared distance
`(n[1]-lat)**2 + (n[0]-lon)**2` of a node `n = (lon, lat)` to the query. -/
def nnKey (lat lon : ℚ) (n : Node) : ℚ := (n.2 - lat) ^ 2 + (n.1 - lon) ^ 2

/-- Embedding of `SafeRouter.find_nearest_node`: `None` on an empty node
list, otherwise Python's `min(node_list, key=...)`. -/
def find_nearest_node (G : Graph) (lat lon : ℚ) : Option Node :=
  match G.nodes with
  | [] => none
  | n :: rest => some (foldMinBy (nnKey lat lon) n rest)

/-! ### Graph construction primitives (`networkx.Graph.add_edge` semantics) -/

/-- `networkx` implicit node insertion: append the node if it is new,
preserving first-insertion iteration order. -/
def addNode (G : Graph) (n : Node) : Graph :=
  if n ∈ G.nodes then G else ⟨G.nodes ++ [n], G.edges⟩

/-- Whether a stored edge record connects the unordered pair `{u, v}`. -/
def edgeTouches (u v : Node) (e : Node × Node × EdgeData) : Bool :=
  decide ((e.1 = u ∧ e.2.1 = v) ∨ (e.1 = v ∧ e.2.1 = u))

/-- `networkx.Graph.add_edge(u, v, **attrs)`: insert `u` and `v` as nodes if
absent, then create the undirected edge or overwrite the attributes of an
existing parallel edge (last write wins). -/
def addEdge (G : Graph) (u v : Node) (d : EdgeData) : Graph :=
  let G1 := addNode (addNode G u) v
  if G1.edges.any (edgeTouches u v) then
    ⟨G1.nodes, G1.edges.map (fun e => if edgeTouches u v e then (e.1, e.2.1, d) else e)⟩
  else
    ⟨G1.nodes, G1.edges ++ [(u, v, d)]⟩

/-- An input road record: an optional geometry plus the two classifier tags,
as consumed by the loop in `_build_graph` (route_engine.py:86-104). -/
inductive Geometry
  | lineString (coords : List Node)
  | other
deriving DecidableEq

/-- One row of the roads GeoDataFrame as `_build_graph` reads it. -/
structure RoadSegment where
  geometry : Option Geometry
  surface : String
  highway : String
deriving DecidableEq

/-- The body of the `for geom, surface, highway in zip(...)` loop of
`_build_graph`: skip non-LineString geometries; classify once per polyline;
add one weighted edge per consecutive coordinate pair.  `dist` abstracts the
transcendental `_haversine`. -/
def insertSegment (dist : Node → Node → ℚ) (G : Graph) (seg : RoadSegment) : Graph :=
  match seg.geometry with
  | some (Geometry.lineString coords) =>
    let sf := get_safety_factor seg.surface seg.highway
    (coords.zip coords.tail).foldl
      (fun g p => addEdge g p.1 p.2 ⟨dist p.1 p.2, sf⟩) G
  | _ => G

/-- The edge-insertion phase of `_build_graph` (route_engine.py:86-104),
before the connectivity filter: fold all input segments into an empty graph. -/
def insertAll (dist : Node → Node → ℚ) (segs : List RoadSegment) : Graph :=
  segs.foldl (insertSegment dist) ⟨[], []⟩

/-! ### Adjacency, reachability and basic invariants -/

/-- Boolean adjacency: some stored edge connects `u` and `v`. -/
def Adj (G : Graph) (u v : Node) : Bool :=
  G.edges.any (edgeTouches u v)

/-- Reachability along edges, the reflexive-transitive closure of adjacency. -/
def Reaches (G : Graph) (u v : Node) : Prop :=
  Relation.ReflTransGen (fun a b => Adj G a b = true) u v

/-- Well-formedness: every stored edge endpoint is a registered node.  This
holds for every graph produced by `add_edge` insertion. -/
def WF (G : Graph) : Prop :=
  ∀ e ∈ G.edges, e.1 ∈ G.nodes ∧ e.2.1 ∈ G.nodes

theorem adj_symm (G : Graph) (u v : Node) : Adj G u v = Adj G v u := by
  unfold Adj
  apply Bool.eq_iff_iff.mpr
  simp only [List.any_eq_true]
  constructor <;>
    · rintro ⟨e, he, ht⟩
      refine ⟨e, he, ?_⟩
      unfold edgeTouches at ht ⊢
      rw [decide_eq_true_iff] at ht
      rw [decide_eq_true_iff]
      exact Or.symm ht

theorem reaches_symm {G : Graph} {u v : Node} (h : Reaches G u v) : Reaches G v u := by
  induction h with
  | refl => exact Relation.ReflTransGen.refl
  | tail _ hadj ih =>
    rename_i b c _
    have : Adj G c b = true := by rw [adj_symm]; exact hadj
    exact Relation.ReflTransGen.trans (Relation.ReflTransGen.single this) ih

theorem adj_mem_right {G : Graph} (hwf : WF G) {u v : Node}
    (h : Adj G u v = true) : v ∈ G.nodes := by
  unfold Adj at h
  rw [List.any_eq_true] at h
  obtain ⟨e, he, ht⟩ := h
  unfold edgeTouches at ht
  rw [decide_eq_true_iff] at ht
  obtain ⟨h1, h2⟩ := hwf e he
  rcases ht with ⟨_, hev⟩ | ⟨hev, _⟩
  · exact hev ▸ h2
  · exact hev ▸ h1

/-! Preservation lemmas for the insertion primitives. -/

theorem addNode_nodes_sup (G : Graph) (n m : Node) (h : m ∈ G.nodes) :
    m ∈ (addNode G n).nodes := by
  unfold addNode
  split
  · exact h
  · exact List.mem_append_left _ h

theorem addNode_mem_self (G : Graph) (n : Node) : n ∈ (addNode G n).nodes := by
  unfold addNode
  split
  · assumption
  · exact List.mem_append_right _ (List.mem_singleton.mpr rfl)

theorem addNode_nodup (G : Graph) (n : Node) (h : G.nodes.Nodup) :
    (addNode G n).nodes.Nodup := by
  unfold addNode
  split
  · exact h
  · rename_i hn
    simp only [List.nodup_append, List.nodup_cons, List.nodup_nil]
    exact ⟨h, by simp, by simpa using fun hmem => hn hmem⟩

theorem addNode_edges (G : Graph) (n : Node) : (addNode G n).edges = G.edges := by
  unfold addNode
  split <;> rfl

theorem addNode_wf (G : Graph) (n : Node) (h : WF G) : WF (addNode G n) := by
  intro e he
  rw [addNode_edges] at he
  obtain ⟨h1, h2⟩ := h e he
  exact ⟨addNode_nodes_sup _ _ _ h1, addNode_nodes_sup _ _ _ h2⟩

theorem addNode_nodes_mem_of (G : Graph) (n m : Node)
    (h : m ∈ (addNode G n).nodes) : m ∈ G.nodes ∨ m = n := by
  unfold addNode at h
  split at h
  · exact Or.inl h
  · rcases List.mem_append.mp h with h' | h'
    · exact Or.inl h'
    · exact Or.inr (List.mem_singleton.mp h')

theorem addEdge_nodes_sup (G : Graph) (u v : Node) (d : EdgeData) (m : Node)
    (h : m ∈ G.nodes) : m ∈ (addEdge G u v d).nodes := by
  simp only [addEdge]
  split <;> exact addNode_nodes_sup _ _ _ (addNode_nodes_sup _ _ _ h)

theorem addEdge_mem_left (G : Graph) (u v : Node) (d : EdgeData) :
    u ∈ (addEdge G u v d).nodes := by
  simp only [addEdge]
  split <;> exact addNode_nodes_sup _ _ _ (addNode_mem_self _ _)

theorem addEdge_mem_right (G : Graph) (u v : Node) (d : EdgeData) :
    v ∈ (addEdge G u v d).nodes := by
  simp only [addEdge]
  split <;> exact addNode_mem_self _ _

theorem addEdge_nodup (G : Graph) (u v : Node) (d : EdgeData)
    (h : G.nodes.Nodup) : (addEdge G u v d).nodes.Nodup := by
  simp only [addEdge]
  split <;> exact addNode_nodup _ _ (addNode_nodup _ _ h)

theorem addEdge_wf (G : Graph) (u v : Node) (d : EdgeData) (h : WF G) :
    WF (addEdge G u v d) := by
  have hwf1 : WF (addNode (addNode G u) v) := addNode_wf _ _ (addNode_wf _ _ h)
  simp only [addEdge]
  split
  · intro e he
    simp only [List.mem_map] at he
    obtain ⟨e', he', heq⟩ := he
    obtain ⟨h1, h2⟩ := hwf1 e' he'
    by_cases ht : edgeTouches u v e' = true
    · rw [if_pos ht] at heq
      subst heq
      exact ⟨h1, h2⟩
    · rw [if_neg ht] at heq
      subst heq
      exact ⟨h1, h2⟩
  · intro e he
    rcases List.mem_append.mp he with h' | h'
    · exact hwf1 e h'
    · rw [List.mem_singleton] at h'
      subst h'
      exact ⟨addNode_nodes_sup _ _ _ (addNode_mem_self _ _), addNode_mem_self _ _⟩

theorem addEdge_nodes_mem_of (G : Graph) (u v : Node) (d : EdgeData) (m : Node)
    (h : m ∈ (addEdge G u v d).nodes) : m ∈ G.nodes ∨ m = u ∨ m = v := by
  have : m ∈ (addNode (addNode G u) v).nodes := by
    simp only [addEdge] at h
    split at h <;> exact h
  rcases addNode_nodes_mem_of _ _ _ this with h' | h'
  · rcases addNode_nodes_mem_of _ _ _ h' with h'' | h''
    · exact Or.inl h''
    · exact Or.inr (Or.inl h'')
  · exact Or.inr (Or.inr h')

/-! ### Connected components (`networkx.is_connected` / `connected_components`)

`networkx` computes components via breadth-first search from a root; the
embedding computes the reachable closure of a root by iterating a saturation
step `|nodes|` times, which provably reaches a fixed point. -/

/-- One saturation step: append every registered node not yet collected that
is adjacent to a collected node. -/
def compStep (G : Graph) (s : List Node) : List Node :=
  s ++ G.nodes.filter (fun x => !(decide (x ∈ s)) && s.any (fun w => Adj G w x))

/-- Iterated saturation. -/
def componentAux (G : Graph) : ℕ → List Node → List Node
  | 0, s => s
  | n + 1, s => componentAux G n (compStep G s)

/-- The connected component of `v`: the reachable closure computed with
`|nodes|` saturation steps (enough to reach the fixed point). -/
def component (G : Graph) (v : Node) : List Node :=
  componentAux G G.nodes.length [v]

theorem mem_compStep_left {G : Graph} {s : List Node} {a : Node} (h : a ∈ s) :
    a ∈ compStep G s :=
  List.mem_append_left _ h

theorem subset_componentAux (G : Graph) (n : ℕ) (s : List Node) :
    ∀ a ∈ s, a ∈ componentAux G n s := by
  induction n generalizing s with
  | zero => exact fun a h => h
  | succ n ih =>
    intro a h
    exact ih (compStep G s) a (mem_compStep_left h)

theorem mem_compStep_cases {G : Graph} {s : List Node} {a : Node}
    (h : a ∈ compStep G s) :
    a ∈ s ∨ (a ∈ G.nodes ∧ ∃ w ∈ s, Adj G w a = true) := by
  rcases List.mem_append.mp h with h' | h'
  · exact Or.inl h'
  · rw [List.mem_filter] at h'
    obtain ⟨hn, hp⟩ := h'
    rw [Bool.and_eq_true, List.any_eq_true] at hp
    exact Or.inr ⟨hn, hp.2⟩

/-- The saturation invariant: everything collected is the root or a
registered node reachable from the root. -/
def CompInv (G : Graph) (v : Node) (s : List Node) : Prop :=
  ∀ a ∈ s, a = v ∨ (Reaches G v a ∧ a ∈ G.nodes)

theorem compInv_step {G : Graph} {v : Node} {s : List Node}
    (h : CompInv G v s) : CompInv G v (compStep G s) := by
  intro a ha
  rcases mem_compStep_cases ha with h' | ⟨hn, w, hw, hadj⟩
  · exact h a h'
  · right
    refine ⟨?_, hn⟩
    rcases h w hw with rfl | ⟨hr, _⟩
    · exact Relation.ReflTransGen.single hadj
    · exact Relation.ReflTransGen.tail hr hadj

theorem compInv_componentAux {G : Graph} {v : Node} {s : List Node} (n : ℕ)
    (h : CompInv G v s) : CompInv G v (componentAux G n s) := by
  induction n generalizing s with
  | zero => exact h
  | succ n ih => exact ih (compInv_step h)

/-- Soundness: each member of `component G v` is `v` itself or a registered
node reachable from `v`. -/
theorem mem_component_sound {G : Graph} {v a : Node} (h : a ∈ component G v) :
    a = v ∨ (Reaches G v a ∧ a ∈ G.nodes) := by
  have hinv : CompInv G v [v] := by
    intro b hb
    rw [List.mem_singleton] at hb
    exact Or.inl hb
  exact compInv_componentAux _ hinv a h

theorem self_mem_component (G : Graph) (v : Node) : v ∈ component G v :=
  subset_componentAux _ _ _ v (List.mem_singleton.mpr rfl)

theorem compStep_nodup {G : Graph} {s : List Node} (hG : G.nodes.Nodup)
    (hs : s.Nodup) : (compStep G s).Nodup := by
  unfold compStep
  rw [List.nodup_append]
  refine ⟨hs, List.Nodup.filter _ hG, ?_⟩
  intro a ha ha'
  rw [List.mem_filter, Bool.and_eq_true, Bool.not_eq_true', decide_eq_false_iff_not] at ha'
  exact ha'.2.1 ha

theorem componentAux_nodup {G : Graph} (hG : G.nodes.Nodup) (n : ℕ)
    {s : List Node} (hs : s.Nodup) : (componentAux G n s).Nodup := by
  induction n generalizing s with
  | zero => exact hs
  | succ n ih => exact ih (compStep_nodup hG hs)

theorem component_nodup {G : Graph} (hG : G.nodes.Nodup) (v : Node) :
    (component G v).Nodup :=
  componentAux_nodup hG _ (List.nodup_singleton v)

theorem component_subset {G : Graph} {v : Node} (hv : v ∈ G.nodes) :
    ∀ a ∈ component G v, a ∈ G.nodes := by
  intro a ha
  rcases mem_component_sound ha with rfl | ⟨_, h⟩
  · exact hv
  · exact h

theorem componentAux_of_fix {G : Graph} {s : List Node} (hfix : compStep G s = s)
    (n : ℕ) : componentAux G n s = s := by
  induction n with
  | zero => rfl
  | succ n ih =>
    show componentAux G n (compStep G s) = s
    rw [hfix]
    exact ih

theorem fix_closed {G : Graph} {s : List Node} (hfix : compStep G s = s)
    {w x : Node} (hw : w ∈ s) (hx : x ∈ G.nodes) (hadj : Adj G w x = true) :
    x ∈ s := by
  by_cases hxs : x ∈ s
  · exact hxs
  · exfalso
    have hxf : x ∈ G.nodes.filter
        (fun y => !(decide (y ∈ s)) && s.any (fun z => Adj G z y)) := by
      rw [List.mem_filter]
      refine ⟨hx, ?_⟩
      rw [Bool.and_eq_true, Bool.not_eq_true', decide_eq_false_iff_not]
      exact ⟨hxs, List.any_eq_true.mpr ⟨w, hw, hadj⟩⟩
    have hlen : (compStep G s).length = s.length := by rw [hfix]
    unfold compStep at hlen
    rw [List.length_append] at hlen
    have : (G.nodes.filter
        (fun y => !(decide (y ∈ s)) && s.any (fun z => Adj G z y))).length = 0 := by
      omega
    rw [List.length_eq_zero] at this
    rw [this] at hxf
    exact List.not_mem_nil _ hxf

theorem fix_reaches_mem {G : Graph} (hwf : WF G) {s : List Node}
    (hfix : compStep G s = s) {v a : Node} (hv : v ∈ s) (hr : Reaches G v a) :
    a ∈ s := by
  induction hr with
  | refl => exact hv
  | tail _ hadj ih => exact fix_closed hfix ih (adj_mem_right hwf hadj) hadj

theorem componentAux_reaches_fix {G : Graph} (hG : G.nodes.Nodup) :
    ∀ (n : ℕ) (s : List Node), s.Nodup →
      (G.nodes.filter (fun x => !(decide (x ∈ s)))).length ≤ n →
      compStep G (componentAux G n s) = componentAux G n s := by
  intro n
  induction n with
  | zero =>
    intro s _ hm
    rw [Nat.le_zero, List.length_eq_zero] at hm
    have hall : ∀ x ∈ G.nodes, x ∈ s := by
      intro x hx
      by_contra hxs
      have : x ∈ G.nodes.filter (fun y => !(decide (y ∈ s))) := by
        rw [List.mem_filter]
        exact ⟨hx, by rw [Bool.not_eq_true', decide_eq_false_iff_not]; exact hxs⟩
      rw [hm] at this
      exact List.not_mem_nil _ this
    show compStep G (componentAux G 0 s) = componentAux G 0 s
    show compStep G s = s
    unfold compStep
    have : G.nodes.filter
        (fun y => !(decide (y ∈ s)) && s.any (fun z => Adj G z y)) = [] := by
      rw [List.filter_eq_nil_iff]
      intro x hx
      rw [Bool.and_eq_true, Bool.not_eq_true', decide_eq_false_iff_not]
      rintro ⟨hxs, _⟩
      exact hxs (hall x hx)
    rw [this, List.append_nil]
  | succ n ih =>
    intro s hs hm
    show compStep G (componentAux G n (compStep G s)) = componentAux G n (compStep G s)
    by_cases hfix : compStep G s = s
    · rw [hfix, componentAux_of_fix hfix, hfix]
    · apply ih (compStep G s) (compStep_nodup hG hs)
      have hsub : s ⊆ compStep G s := fun a h => mem_compStep_left h
      have hmono : List.Sublist
          (G.nodes.filter (fun x => !(decide (x ∈ compStep G s))))
          (G.nodes.filter (fun x => !(decide (x ∈ s)))) := by
        apply List.monotone_filter_right
        intro a ha
        rw [Bool.not_eq_true', decide_eq_false_iff_not] at ha ⊢
        exact fun h => ha (hsub h)
      have hne : G.nodes.filter (fun x => !(decide (x ∈ compStep G s))) ≠
          G.nodes.filter (fun x => !(decide (x ∈ s))) := by
        intro heq
        have hfne : G.nodes.filter
            (fun y => !(decide (y ∈ s)) && s.any (fun z => Adj G z y)) ≠ [] := by
          intro hnil
          apply hfix
          unfold compStep
          rw [hnil, List.append_nil]
        obtain ⟨a, haf⟩ := List.exists_mem_of_ne_nil _ hfne
        rw [List.mem_filter, Bool.and_eq_true, Bool.not_eq_true',
          decide_eq_false_iff_not] at haf
        obtain ⟨han, hans, hany⟩ := haf
        have ha1 : a ∈ G.nodes.filter (fun x => !(decide (x ∈ s))) := by
          rw [List.mem_filter, Bool.not_eq_true', decide_eq_false_iff_not]
          exact ⟨han, hans⟩
        rw [← heq, List.mem_filter, Bool.not_eq_true',
          decide_eq_false_iff_not] at ha1
        apply ha1.2
        apply List.mem_append_right
        rw [List.mem_filter, Bool.and_eq_true, Bool.not_eq_true',
          decide_eq_false_iff_not]
        exact ⟨han, hans, hany⟩
      have hlt : (G.nodes.filter (fun x => !(decide (x ∈ compStep G s)))).length <
          (G.nodes.filter (fun x => !(decide (x ∈ s)))).length := by
        rcases Nat.lt_or_ge (G.nodes.filter
            (fun x => !(decide (x ∈ compStep G s)))).length
            (G.nodes.filter (fun x => !(decide (x ∈ s)))).length with h | h
        · exact h
        · exfalso
          apply hne
          exact hmono.eq_of_length (Nat.le_antisymm hmono.length_le h)
      omega

theorem component_fix {G : Graph} (hG : G.nodes.Nodup) (v : Node) :
    compStep G (component G v) = component G v := by
  apply componentAux_reaches_fix hG G.nodes.length [v] (List.nodup_singleton v)
  exact List.length_filter_le _ _

/-- Completeness: every node reachable from `v` is collected in
`component G v` (for a well-formed graph with duplicate-free node list). -/
theorem mem_component_complete {G : Graph} (hG : G.nodes.Nodup) (hwf : WF G)
    {v a : Node} (hr : Reaches G v a) : a ∈ component G v :=
  fix_reaches_mem hwf (component_fix hG v) (self_mem_component G v) hr

/-- Characterisation of the computed component as the reachability closure. -/
theorem mem_component_iff {G : Graph} (hG : G.nodes.Nodup) (hwf : WF G)
    {v a : Node} :
    a ∈ component G v ↔ a = v ∨ (Reaches G v a ∧ a ∈ G.nodes) := by
  constructor
  · exact mem_component_sound
  · rintro (rfl | ⟨hr, _⟩)
    · exact self_mem_component G _
    · exact mem_component_complete hG hwf hr

/-- `networkx.connected_components`: walk the node list in order, emitting the
component of each node not yet covered by an earlier component.  Structural
recursion on a fuel bound (the node count suffices, since the worklist
shrinks by at least one entry per step). -/
def connectedCompsAux (G : Graph) : ℕ → List Node → List (List Node)
  | 0, _ => []
  | _ + 1, [] => []
  | n + 1, v :: rest =>
    component G v ::
      connectedCompsAux G n (rest.filter (fun x => decide (x ∉ component G v)))

/-- The component list of the whole graph, in first-discovery order. -/
def connected_components (G : Graph) : List (List Node) :=
  connectedCompsAux G G.nodes.length G.nodes

/-- Python's `max(components, key=len)` (first maximal element wins),
with `[]` as the default for an empty component list. -/
def maxByLenD (l : List (List Node)) : List Node :=
  match l with
  | [] => []
  | c :: rest => foldMinBy (fun x => -(x.length : ℚ)) c rest

/-- `G.subgraph(cc).copy()`: the induced subgraph on the node set `cc`,
keeping the original iteration order. -/
def inducedSubgraph (G : Graph) (cc : List Node) : Graph :=
  ⟨G.nodes.filter (fun n => decide (n ∈ cc)),
   G.edges.filter (fun e => decide (e.1 ∈ cc) && decide (e.2.1 ∈ cc))⟩

/-- Embedding of `SafeRouter._build_graph` (route_engine.py:73-115): insert
all segment edges, then test connectivity and, if disconnected, keep only the
largest connected component.  `networkx.is_connected` raises
`NetworkXPointlessConcept` on a graph with no nodes, which the constructor
does not catch; that is the `.error` branch. -/
def build_graph (dist : Node → Node → ℚ) (segs : List RoadSegment) :
    Except String Graph :=
  let G := insertAll dist segs
  match G.nodes with
  | [] => .error "NetworkXPointlessConcept: Connectivity is undefined for the null graph."
  | v :: _ =>
    if (component G v).length = G.nodes.length then .ok G
    else .ok (inducedSubgraph G (maxByLenD (connected_components G)))

theorem connectedCompsAux_cover (G : Graph) :
    ∀ (n : ℕ) (l : List Node), l.length ≤ n → ∀ a ∈ l,
      ∃ c ∈ connectedCompsAux G n l, a ∈ c := by
  intro n
  induction n with
  | zero =>
    intro l hl a ha
    rw [Nat.le_zero, List.length_eq_zero] at hl
    subst hl
    exact absurd ha (List.not_mem_nil a)
  | succ n ih =>
    intro l hl a ha
    cases l with
    | nil => exact absurd ha (List.not_mem_nil a)
    | cons v rest =>
      show ∃ c ∈ component G v :: connectedCompsAux G n
        (rest.filter (fun x => decide (x ∉ component G v))), a ∈ c
      by_cases hac : a ∈ component G v
      · exact ⟨component G v, List.mem_cons_self _ _, hac⟩
      · have ha' : a ∈ rest := by
          rcases List.mem_cons.mp ha with h | h
          · exact absurd (h ▸ self_mem_component G v) hac
          · exact h
        have haf : a ∈ rest.filter (fun x => decide (x ∉ component G v)) := by
          rw [List.mem_filter, decide_eq_true_iff]
          exact ⟨ha', hac⟩
        have hlen : (rest.filter (fun x => decide (x ∉ component G v))).length ≤ n := by
          have h1 := List.length_filter_le (fun x => decide (x ∉ component G v)) rest
          rw [List.length_cons] at hl
          omega
        obtain ⟨c, hc, hac'⟩ := ih _ hlen a haf
        exact ⟨c, List.mem_cons_of_mem _ hc, hac'⟩

theorem connectedCompsAux_source (G : Graph) :
    ∀ (n : ℕ) (l : List Node), l.length ≤ n → ∀ c ∈ connectedCompsAux G n l,
      ∃ v ∈ l, c = component G v := by
  intro n
  induction n with
  | zero =>
    intro l hl c hc
    rw [Nat.le_zero, List.length_eq_zero] at hl
    subst hl
    rw [connectedCompsAux] at hc
    exact absurd hc (List.not_mem_nil c)
  | succ n ih =>
    intro l hl c hc
    cases l with
    | nil =>
      rw [connectedCompsAux] at hc
      exact absurd hc (List.not_mem_nil c)
    | cons v rest =>
      rw [connectedCompsAux] at hc
      rcases List.mem_cons.mp hc with h | h
      · exact ⟨v, List.mem_cons_self _ _, h⟩
      · have hlen : (rest.filter (fun x => decide (x ∉ component G v))).length ≤ n := by
          have h1 := List.length_filter_le (fun x => decide (x ∉ component G v)) rest
          rw [List.length_cons] at hl
          omega
        obtain ⟨w, hw, hcw⟩ := ih _ hlen c h
        rw [List.mem_filter] at hw
        exact ⟨w, List.mem_cons_of_mem _ hw.1, hcw⟩

theorem maxByLenD_spec (c : List Node) (rest : List (List Node)) :
    maxByLenD (c :: rest) ∈ c :: rest ∧
    ∀ x ∈ c :: rest, x.length ≤ (maxByLenD (c :: rest)).length := by
  obtain ⟨hmem, hmin, _⟩ :=
    foldMinBy_spec (fun x : List Node => -(x.length : ℚ)) c rest
  refine ⟨hmem, ?_⟩
  intro x hx
  have := hmin x hx
  have : ((x.length : ℚ)) ≤ ((maxByLenD (c :: rest)).length : ℚ) := by
    show ((x.length : ℚ)) ≤ ((foldMinBy (fun x : List Node => -(x.length : ℚ)) c rest).length : ℚ)
    linarith [hmin x hx]
  exact_mod_cast this

/-! ### Invariants of the insertion phase -/

theorem foldl_addEdge_nodup (f : Node × Node → EdgeData) :
    ∀ (ps : List (Node × Node)) (G : Graph), G.nodes.Nodup →
      ((ps.foldl (fun g p => addEdge g p.1 p.2 (f p)) G).nodes.Nodup) := by
  intro ps
  induction ps with
  | nil => exact fun G h => h
  | cons p t ih =>
    intro G h
    exact ih _ (addEdge_nodup _ _ _ _ h)

theorem foldl_addEdge_wf (f : Node × Node → EdgeData) :
    ∀ (ps : List (Node × Node)) (G : Graph), WF G →
      WF (ps.foldl (fun g p => addEdge g p.1 p.2 (f p)) G) := by
  intro ps
  induction ps with
  | nil => exact fun G h => h
  | cons p t ih =>
    intro G h
    exact ih _ (addEdge_wf _ _ _ _ h)

theorem foldl_addEdge_nodes_mem (f : Node × Node → EdgeData) :
    ∀ (ps : List (Node × Node)) (G : Graph) (a : Node),
      a ∈ (ps.foldl (fun g p => addEdge g p.1 p.2 (f p)) G).nodes →
      a ∈ G.nodes ∨ ∃ p ∈ ps, a = p.1 ∨ a = p.2 := by
  intro ps
  induction ps with
  | nil => exact fun G a h => Or.inl h
  | cons p t ih =>
    intro G a h
    rcases ih _ a h with h' | ⟨q, hq, hor⟩
    · rcases addEdge_nodes_mem_of _ _ _ _ _ h' with h'' | h'' | h''
      · exact Or.inl h''
      · exact Or.inr ⟨p, List.mem_cons_self _ _, Or.inl h''⟩
      · exact Or.inr ⟨p, List.mem_cons_self _ _, Or.inr h''⟩
    · exact Or.inr ⟨q, List.mem_cons_of_mem _ hq, hor⟩

theorem insertSegment_nodup (dist : Node → Node → ℚ) (G : Graph)
    (seg : RoadSegment) (h : G.nodes.Nodup) :
    (insertSegment dist G seg).nodes.Nodup := by
  unfold insertSegment
  match seg.geometry with
  | some (Geometry.lineString coords) =>
    exact foldl_addEdge_nodup _ _ _ h
  | some Geometry.other => exact h
  | none => exact h

theorem insertSegment_wf (dist : Node → Node → ℚ) (G : Graph)
    (seg : RoadSegment) (h : WF G) : WF (insertSegment dist G seg) := by
  unfold insertSegment
  match seg.geometry with
  | some (Geometry.lineString coords) =>
    exact foldl_addEdge_wf _ _ _ h
  | some Geometry.other => exact h
  | none => exact h

theorem insertSegment_nodes_mem (dist : Node → Node → ℚ) (G : Graph)
    (seg : RoadSegment) (a : Node) (h : a ∈ (insertSegment dist G seg).nodes) :
    a ∈ G.nodes ∨ ∃ cs, seg.geometry = some (Geometry.lineString cs) ∧ a ∈ cs := by
  revert h
  unfold insertSegment
  match hg : seg.geometry with
  | some (Geometry.lineString coords) =>
    intro h
    rcases foldl_addEdge_nodes_mem _ _ _ _ h with h' | ⟨p, hp, hor⟩
    · exact Or.inl h'
    · right
      refine ⟨coords, rfl, ?_⟩
      obtain ⟨h1, h2⟩ := List.of_mem_zip hp
      rcases hor with rfl | rfl
      · exact h1
      · exact List.mem_of_mem_tail h2
  | some Geometry.other => exact fun h => Or.inl h
  | none => exact fun h => Or.inl h

theorem insertAll_nodup (dist : Node → Node → ℚ) (segs : List RoadSegment) :
    (insertAll dist segs).nodes.Nodup := by
  unfold insertAll
  have : ∀ (l : List RoadSegment) (G : Graph), G.nodes.Nodup →
      (l.foldl (insertSegment dist) G).nodes.Nodup := by
    intro l
    induction l with
    | nil => exact fun G h => h
    | cons s t ih => exact fun G h => ih _ (insertSegment_nodup dist G s h)
  exact this segs ⟨[], []⟩ List.nodup_nil

theorem insertAll_wf (dist : Node → Node → ℚ) (segs : List RoadSegment) :
    WF (insertAll dist segs) := by
  unfold insertAll
  have : ∀ (l : List RoadSegment) (G : Graph), WF G →
      WF (l.foldl (insertSegment dist) G) := by
    intro l
    induction l with
    | nil => exact fun G h => h
    | cons s t ih => exact fun G h => ih _ (insertSegment_wf dist G s h)
  exact this segs ⟨[], []⟩ (fun e he => absurd he (List.not_mem_nil e))

theorem insertAll_nodes_mem (dist : Node → Node → ℚ) (segs : List RoadSegment)
    (a : Node) (h : a ∈ (insertAll dist segs).nodes) :
    ∃ s ∈ segs, ∃ cs, s.geometry = some (Geometry.lineString cs) ∧ a ∈ cs := by
  unfold insertAll at h
  have main : ∀ (l : List RoadSegment) (G : Graph),
      a ∈ (l.foldl (insertSegment dist) G).nodes →
      a ∈ G.nodes ∨ ∃ s ∈ l, ∃ cs, s.geometry = some (Geometry.lineString cs) ∧ a ∈ cs := by
    intro l
    induction l with
    | nil => exact fun G h => Or.inl h
    | cons s t ih =>
      intro G h
      rcases ih _ h with h' | ⟨s', hs', cs, hcs, hacs⟩
      · rcases insertSegment_nodes_mem dist G s a h' with h'' | ⟨cs, hcs, hacs⟩
        · exact Or.inl h''
        · exact Or.inr ⟨s, List.mem_cons_self _ _, cs, hcs, hacs⟩
      · exact Or.inr ⟨s', List.mem_cons_of_mem _ hs', cs, hcs, hacs⟩
  rcases main segs ⟨[], []⟩ h with h' | h'
  · exact absurd h' (List.not_mem_nil a)
  · exact h'

/-! ### The induced subgraph of a component -/

theorem induced_nodes_mem {G : Graph} {cc : List Node} {a : Node} :
    a ∈ (inducedSubgraph G cc).nodes ↔ a ∈ G.nodes ∧ a ∈ cc := by
  unfold inducedSubgraph
  rw [List.mem_filter, decide_eq_true_iff]

theorem reaches_in_induced {G : Graph} (hG : G.nodes.Nodup) (hwf : WF G)
    {root x : Node} (hr : Reaches G root x) :
    Reaches (inducedSubgraph G (component G root)) root x := by
  induction hr with
  | refl => exact Relation.ReflTransGen.refl
  | tail hrb hadj ih =>
    rename_i b c
    have hb : b ∈ component G root := mem_component_complete hG hwf hrb
    have hc : c ∈ component G root :=
      mem_component_complete hG hwf (Relation.ReflTransGen.tail hrb hadj)
    refine Relation.ReflTransGen.tail ih ?_
    unfold Adj at hadj ⊢
    rw [List.any_eq_true] at hadj
    obtain ⟨e, he, ht⟩ := hadj
    rw [List.any_eq_true]
    refine ⟨e, ?_, ht⟩
    unfold inducedSubgraph
    rw [List.mem_filter, Bool.and_eq_true, decide_eq_true_iff, decide_eq_true_iff]
    unfold edgeTouches at ht
    rw [decide_eq_true_iff] at ht
    rcases ht with ⟨h1, h2⟩ | ⟨h1, h2⟩
    · exact ⟨he, h1 ▸ hb, h2 ▸ hc⟩
    · exact ⟨he, h1 ▸ hc, h2 ▸ hb⟩

theorem component_length_eq_of_mem {G : Graph} (hG : G.nodes.Nodup)
    (hwf : WF G) {r w : Node} (hw : w ∈ component G r) :
    (component G w).length = (component G r).length := by
  have hwr : w = r ∨ Reaches G r w := by
    rcases mem_component_sound hw with h | ⟨h, _⟩
    · exact Or.inl h
    · exact Or.inr h
  have hiff : ∀ a, a ∈ component G w ↔ a ∈ component G r := by
    intro a
    constructor
    · intro ha
      rcases mem_component_sound ha with rfl | ⟨hra, hmem⟩
      · exact hw
      · rcases hwr with rfl | hrw
        · exact mem_component_complete hG hwf hra
        · exact mem_component_complete hG hwf (Relation.ReflTransGen.trans hrw hra)
    · intro ha
      rcases mem_component_sound ha with rfl | ⟨hra, hmem⟩
      · rcases hwr with rfl | hrw
        · exact self_mem_component G _
        · exact mem_component_complete hG hwf (reaches_symm hrw)
      · rcases hwr with rfl | hrw
        · exact mem_component_complete hG hwf hra
        · exact mem_component_complete hG hwf
            (Relation.ReflTransGen.trans (reaches_symm hrw) hra)
  have hperm : List.Perm (component G w) (component G r) :=
    (List.perm_ext_iff_of_nodup (component_nodup hG w) (component_nodup hG r)).mpr hiff
  exact hperm.length_eq

theorem component_covers_of_length_eq {G : Graph} (hG : G.nodes.Nodup)
    {v : Node} (hv : v ∈ G.nodes)
    (hlen : (component G v).length = G.nodes.length) :
    ∀ a ∈ G.nodes, a ∈ component G v := by
  have hsub : ∀ a ∈ component G v, a ∈ G.nodes := component_subset hv
  have hsp : List.Subperm (component G v) G.nodes :=
    List.subperm_of_subset (component_nodup hG v) hsub
  have hperm : List.Perm (component G v) G.nodes :=
    hsp.perm_of_length_le (le_of_eq hlen.symm)
  intro a ha
  exact hperm.mem_iff.mpr ha

theorem inducedSubgraph_eq_self {G : Graph} {cc : List Node} (hwf : WF G)
    (hcov : ∀ a ∈ G.nodes, a ∈ cc) : inducedSubgraph G cc = G := by
  unfold inducedSubgraph
  have hn : G.nodes.filter (fun n => decide (n ∈ cc)) = G.nodes := by
    rw [List.filter_eq_self]
    intro a ha
    rw [decide_eq_true_iff]
    exact hcov a ha
  have he : G.edges.filter (fun e => decide (e.1 ∈ cc) && decide (e.2.1 ∈ cc)) = G.edges := by
    rw [List.filter_eq_self]
    intro e he
    obtain ⟨h1, h2⟩ := hwf e he
    rw [Bool.and_eq_true, decide_eq_true_iff, decide_eq_true_iff]
    exact ⟨hcov _ h1, hcov _ h2⟩
  rw [hn, he]

theorem induced_component_length {G : Graph} (hG : G.nodes.Nodup)
    {root : Node} (hroot : root ∈ G.nodes) :
    (inducedSubgraph G (component G root)).nodes.length =
      (component G root).length := by
  have hiff : ∀ a, a ∈ (inducedSubgraph G (component G root)).nodes ↔
      a ∈ component G root := by
    intro a
    rw [induced_nodes_mem]
    constructor
    · exact fun h => h.2
    · intro h
      exact ⟨component_subset hroot a h, h⟩
  have hperm : List.Perm (inducedSubgraph G (component G root)).nodes
      (component G root) := by
    refine (List.perm_ext_iff_of_nodup ?_ (component_nodup hG root)).mpr hiff
    exact List.Nodup.filter _ hG
  exact hperm.length_eq

/-- C6: for every input segment collection for which `_build_graph` returns a
graph (`networkx.is_connected` raises on a node-less graph, so none is
returned then), the returned graph is connected, and it is exactly the
induced subgraph of the inserted edge graph on the reachability component of
some root whose node count is maximal among all components; every other node
and edge is discarded. -/
theorem c6_build_graph_largest_component (dist : Node → Node → ℚ)
    (segs : List RoadSegment) (G : Graph)
    (h : build_graph dist segs = Except.ok G) :
    (∀ u ∈ G.nodes, ∀ w ∈ G.nodes, Reaches G u w) ∧
    ∃ root ∈ (insertAll dist segs).nodes,
      G = inducedSubgraph (insertAll dist segs)
            (component (insertAll dist segs) root) ∧
      ∀ w ∈ (insertAll dist segs).nodes,
        (component (insertAll dist segs) w).length ≤ G.nodes.length := by
  have hG := insertAll_nodup dist segs
  have hwf := insertAll_wf dist segs
  simp only [build_graph] at h
  split at h
  · simp at h
  · rename_i v rest hP
    have hv : v ∈ (insertAll dist segs).nodes := by
      rw [hP]
      exact List.mem_cons_self _ _
    split at h
    · rename_i hconn
      have hGeq : insertAll dist segs = G := by
        injection h
      subst hGeq
      have hcov : ∀ a ∈ (insertAll dist segs).nodes,
          a ∈ component (insertAll dist segs) v :=
        component_covers_of_length_eq hG hv hconn
      have hreach : ∀ a ∈ (insertAll dist segs).nodes,
          Reaches (insertAll dist segs) v a := by
        intro a ha
        rcases mem_component_sound (hcov a ha) with rfl | ⟨hr, _⟩
        · exact Relation.ReflTransGen.refl
        · exact hr
      refine ⟨?_, v, hv, ?_, ?_⟩
      · intro u hu w hw
        exact Relation.ReflTransGen.trans (reaches_symm (hreach u hu)) (hreach w hw)
      · exact (inducedSubgraph_eq_self hwf hcov).symm
      · intro w hw
        have hsub : ∀ a ∈ component (insertAll dist segs) w,
            a ∈ (insertAll dist segs).nodes := component_subset hw
        have hsp : List.Subperm (component (insertAll dist segs) w)
            (insertAll dist segs).nodes :=
          List.subperm_of_subset (component_nodup hG w) hsub
        exact hsp.length_le
    · rename_i hconn
      have hGeq : inducedSubgraph (insertAll dist segs)
          (maxByLenD (connected_components (insertAll dist segs))) = G := by
        injection h
      have hcomps : connected_components (insertAll dist segs) =
          component (insertAll dist segs) v ::
            connectedCompsAux (insertAll dist segs) rest.length
              (rest.filter (fun x => decide (x ∉ component (insertAll dist segs) v))) := by
        unfold connected_components
        rw [hP]
        rfl
      obtain ⟨hccmem, hccmax⟩ := maxByLenD_spec
        (component (insertAll dist segs) v)
        (connectedCompsAux (insertAll dist segs) rest.length
          (rest.filter (fun x => decide (x ∉ component (insertAll dist segs) v))))
      rw [← hcomps] at hccmem hccmax
      have hccsrc : ∃ root ∈ (insertAll dist segs).nodes,
          maxByLenD (connected_components (insertAll dist segs)) =
            component (insertAll dist segs) root := by
        have := connectedCompsAux_source (insertAll dist segs)
          (insertAll dist segs).nodes.length (insertAll dist segs).nodes le_rfl
          (maxByLenD (connected_components (insertAll dist segs)))
        exact this hccmem
      obtain ⟨root, hroot, hccroot⟩ := hccsrc
      rw [hccroot] at hGeq hccmax
      refine ⟨?_, root, hroot, hGeq.symm, ?_⟩
      · intro u hu w hw
        rw [← hGeq] at hu hw
        rw [induced_nodes_mem] at hu hw
        have hqreach : ∀ a, a ∈ component (insertAll dist segs) root →
            Reaches (inducedSubgraph (insertAll dist segs)
              (component (insertAll dist segs) root)) root a := by
          intro a ha
          rcases mem_component_sound ha with rfl | ⟨hr, _⟩
          · exact Relation.ReflTransGen.refl
          · exact reaches_in_induced hG hwf hr
        have hqu := hqreach u hu.2
        have hqw := hqreach w hw.2
        rw [← hGeq]
        exact Relation.ReflTransGen.trans (reaches_symm hqu) hqw
      · intro w hw
        obtain ⟨c, hc, hwc⟩ := connectedCompsAux_cover (insertAll dist segs)
          (insertAll dist segs).nodes.length (insertAll dist segs).nodes le_rfl w hw
        obtain ⟨r, hr, hcr⟩ := connectedCompsAux_source (insertAll dist segs)
          (insertAll dist segs).nodes.length (insertAll dist segs).nodes le_rfl c hc
        subst hcr
        have hlen1 : (component (insertAll dist segs) w).length =
            (component (insertAll dist segs) r).length :=
          component_length_eq_of_mem hG hwf hwc
        have hlen2 : (component (insertAll dist segs) r).length ≤
            (component (insertAll dist segs) root).length :=
          hccmax _ hc
        have hlen3 : G.nodes.length = (component (insertAll dist segs) root).length := by
          rw [← hGeq]
          exact induced_component_length hG hroot
        omega

/-! ### Weighted shortest path (`networkx.shortest_path` with callable weight)

`networkx` runs Dijkstra.  The embedding is a fuel-bounded Dijkstra loop that
finalises one node per iteration; the claims verified here depend on which
queries succeed and on path reconstruction, not on cost optimality, and every
concrete evaluation below is on a graph whose relevant path is unique. -/

/-- `G.get_edge_data(u, v)`: the attribute record of the edge joining `u` and
`v`, if present (either orientation). -/
def get_edge_data (G : Graph) (u v : Node) : Option EdgeData :=
  (G.edges.find? (edgeTouches u v)).map (fun e => e.2.2)

/-- All neighbours of `u` with the connecting edge's attributes. -/
def neighborsOf (G : Graph) (u : Node) : List (Node × EdgeData) :=
  G.edges.foldr
    (fun e acc =>
      if e.1 = u then (e.2.1, e.2.2) :: acc
      else if e.2.1 = u then (e.1, e.2.2) :: acc
      else acc) []

/-- A tentative-queue entry: node, cost so far, reversed path to the node. -/
abbrev QEntry := Node × ℚ × List Node

/-- Extract the first entry of minimum cost (heap pop; ties to the first). -/
def extractMinCost : List QEntry → Option (QEntry × List QEntry)
  | [] => none
  | e :: rest =>
    match extractMinCost rest with
    | none => some (e, [])
    | some (m, rest') =>
      if m.2.1 < e.2.1 then some (m, e :: rest') else some (e, rest)

/-- Look up the tentative cost of a node in the queue. -/
def lookupCost (t : List QEntry) (n : Node) : Option ℚ :=
  (t.find? (fun e => decide (e.1 = n))).map (fun e => e.2.1)

/-- Replace the entry of `n` with a cheaper one. -/
def updateEntry (t : List QEntry) (n : Node) (c : ℚ) (p : List Node) : List QEntry :=
  t.map (fun e => if e.1 = n then (n, c, p) else e)

/-- Relax all neighbours of the freshly finalised node `u`. -/
def relaxAll (wf : EdgeData → ℚ) (fin : List Node) (c : ℚ) (rev : List Node)
    (nbrs : List (Node × EdgeData)) (tent : List QEntry) : List QEntry :=
  nbrs.foldl
    (fun t vd =>
      if vd.1 ∈ fin then t
      else
        let nc := c + wf vd.2
        match lookupCost t vd.1 with
        | some oc => if nc < oc then updateEntry t vd.1 nc (vd.1 :: rev) else t
        | none => t ++ [(vd.1, nc, vd.1 :: rev)])
    tent

/-- The Dijkstra main loop, fuel-bounded. -/
def dijkstraAux (G : Graph) (wf : EdgeData → ℚ) (target : Node) :
    ℕ → List Node → List QEntry → Option (List Node)
  | 0, _, _ => none
  | n + 1, fin, tent =>
    match extractMinCost tent with
    | none => none
    | some ((u, c, rev), rest) =>
      if u = target then some rev.reverse
      else
        dijkstraAux G wf target n (u :: fin)
          (relaxAll wf (u :: fin) c rev (neighborsOf G u) rest)

/-- Dijkstra from `s` to `t`; `none` models `NetworkXNoPath`. -/
def dijkstraCore (G : Graph) (wf : EdgeData → ℚ) (s t : Node) : Option (List Node) :=
  dijkstraAux G wf t (G.nodes.length + 1) [] [(s, 0, [s])]

/-- Embedding of `nx.shortest_path(G, source, target, weight=weight_func)`:
raises `NodeNotFound` (uncaught by the caller) when either endpoint is `None`
or not a node of the graph; returns `none` for `NetworkXNoPath`, which the
caller catches and converts to an overall `None` result. -/
def shortest_path (G : Graph) (wf : EdgeData → ℚ) (s t : Option Node) :
    Except String (Option (List Node)) :=
  match s, t with
  | some s', some t' =>
    if s' ∈ G.nodes ∧ t' ∈ G.nodes then Except.ok (dijkstraCore G wf s' t')
    else Except.error "NodeNotFound"
  | _, _ => Except.error "NodeNotFound"

/-! ### Route reconstruction and the router (`get_safest_route`) -/

/-- A clinic geometry as `get_safest_route` consumes it: a point is used
directly as `(geom.y, geom.x)`, any other geometry through its (externally
computed, shapely) centroid. -/
inductive ClinicGeom
  | point (y x : ℚ)
  | area (cy cx : ℚ)
deriving DecidableEq

/-- `(lat, lon)` coordinates of a clinic record (route_engine.py:199-205). -/
def clinicCoord : ClinicGeom → ℚ × ℚ
  | ClinicGeom.point y x => (y, x)
  | ClinicGeom.area cy cx => (cy, cx)

/-- The result dictionary of `get_safest_route`: the `MultiLineString` route
as the list of its two-point segments, the rounded total distance and
average safety factor, and the risk flag. -/
structure RouteResult where
  route : List (Node × Node)
  distance_meters : ℚ
  avg_safety_factor : ℚ
  is_high_risk : Bool
deriving DecidableEq

/-- The reconstruction loop over consecutive path pairs
(route_engine.py:241-250): accumulate geometry, total distance and the
weighted safety score.  A missing edge would make Python crash on
`None.get` (`AttributeError`), the error case here; it cannot happen for a
path returned by the search. -/
def accumPath (G : Graph) : List (Node × Node) → Except String (List (Node × Node) × ℚ × ℚ)
  | [] => Except.ok ([], 0, 0)
  | p :: rest =>
    match get_edge_data G p.1 p.2 with
    | none => Except.error "AttributeError: NoneType object has no attribute get"
    | some d =>
      match accumPath G rest with
      | Except.error e => Except.error e
      | Except.ok (g, t, sc) =>
        Except.ok (p :: g, d.weight + t, d.safety_factor * d.weight + sc)

/-- Result assembly of `get_safest_route` (route_engine.py:237-262): geometry,
`round(total_dist, 2)`, the zero-guarded safety average `safe_score /
total_dist if total_dist > 0 else 1.0` rounded to 2 digits, and the flag. -/
def reconstructRoute (G : Graph) (ihr : Bool) (path : List Node) :
    Except String RouteResult :=
  match accumPath G (path.zip path.tail) with
  | Except.error e => Except.error e
  | Except.ok (geom, total_dist, safe_score) =>
    let avg_safety := if 0 < total_dist then safe_score / total_dist else 1
    Except.ok ⟨geom, pyRound2 total_dist, pyRound2 avg_safety, ihr⟩

/-- Embedding of `SafeRouter.get_safest_route` (route_engine.py:181-265).
`clinics` is `None` when the clinic file failed to load, otherwise the list
of clinic geometries; the distance-key minimisations are Python `min`. -/
def get_safest_route (G : Graph) (clinics : Option (List ClinicGeom))
    (start_lat start_lon : ℚ) (week : ℤ) (risk_level : String) :
    Except String (Option RouteResult) :=
  let start_node := find_nearest_node G start_lat start_lon
  match clinics with
  | none => Except.ok none
  | some cls =>
    match cls.map clinicCoord with
    | [] => Except.ok none
    | c0 :: cr =>
      let target_clinic :=
        foldMinBy (fun c => (c.1 - start_lat) ^ 2 + (c.2 - start_lon) ^ 2) c0 cr
      let end_node := find_nearest_node G target_clinic.1 target_clinic.2
      let ihr := is_high_risk_of week risk_level
      match shortest_path G (weight_func ihr) start_node end_node with
      | Except.error e => Except.error e
      | Except.ok none => Except.ok none
      | Except.ok (some path) =>
        match reconstructRoute G ihr path with
        | Except.error e => Except.error e
        | Except.ok r => Except.ok (some r)

/-- Sum of the stored edge weights over a segment list (0 for a segment with
no stored edge, mirroring `edge_data.get('weight', 0)`). -/
def sumEdgeWeights (G : Graph) (segs : List (Node × Node)) : ℚ :=
  segs.foldr
    (fun p acc =>
      (match get_edge_data G p.1 p.2 with
       | some d => d.weight
       | none => 0) + acc) 0

/-- Sum of `safety_factor * weight` over a segment list. -/
def sumWeightedSafety (G : Graph) (segs : List (Node × Node)) : ℚ :=
  segs.foldr
    (fun p acc =>
      (match get_edge_data G p.1 p.2 with
       | some d => d.safety_factor * d.weight
       | none => 0) + acc) 0

theorem accumPath_ok (G : Graph) :
    ∀ (l g : List (Node × Node)) (t s : ℚ),
      accumPath G l = Except.ok (g, t, s) →
      g = l ∧ t = sumEdgeWeights G l ∧ s = sumWeightedSafety G l ∧
      ∀ p ∈ l, get_edge_data G p.1 p.2 ≠ none := by
  intro l
  induction l with
  | nil =>
    intro g t s h
    rw [accumPath] at h
    injection h with h
    simp only [Prod.mk.injEq] at h
    obtain ⟨h1, h2, h3⟩ := h
    exact ⟨h1.symm, by simp [sumEdgeWeights, ← h2], by simp [sumWeightedSafety, ← h3],
      fun p hp => absurd hp (List.not_mem_nil p)⟩
  | cons p rest ih =>
    intro g t s h
    rw [accumPath] at h
    split at h
    · exact absurd h (by simp)
    · rename_i d hd
      split at h
      · exact absurd h (by simp)
      · rename_i g' t' s' hacc
        obtain ⟨hg', ht', hs', hmem'⟩ := ih g' t' s' hacc
        injection h with h
        simp only [Prod.mk.injEq] at h
        obtain ⟨h1, h2, h3⟩ := h
        refine ⟨?_, ?_, ?_, ?_⟩
        · rw [← h1, hg']
        · rw [← h2, ht']
          show d.weight + sumEdgeWeights G rest = sumEdgeWeights G (p :: rest)
          unfold sumEdgeWeights
          rw [List.foldr_cons, hd]
        · rw [← h3, hs']
          show d.safety_factor * d.weight + sumWeightedSafety G rest =
            sumWeightedSafety G (p :: rest)
          unfold sumWeightedSafety
          rw [List.foldr_cons, hd]
        · intro q hq
          rcases List.mem_cons.mp hq with rfl | hq'
          · rw [hd]
            exact fun hc => Option.noConfusion hc
          · exact hmem' q hq'

theorem reconstructRoute_ok (G : Graph) (ihr : Bool) (path : List Node)
    (r : RouteResult) (h : reconstructRoute G ihr path = Except.ok r) :
    r.route = path.zip path.tail ∧
    r.distance_meters = pyRound2 (sumEdgeWeights G r.route) ∧
    r.avg_safety_factor = pyRound2 (if 0 < sumEdgeWeights G r.route
      then sumWeightedSafety G r.route / sumEdgeWeights G r.route else 1) ∧
    r.is_high_risk = ihr ∧
    ∀ p ∈ r.route, get_edge_data G p.1 p.2 ≠ none := by
  unfold reconstructRoute at h
  split at h
  · exact absurd h (by simp)
  · rename_i geom total_dist safe_score hacc
    obtain ⟨hg, ht, hs, hmem⟩ := accumPath_ok G _ geom total_dist safe_score hacc
    injection h with h
    subst h
    refine ⟨hg, ?_, ?_, rfl, ?_⟩
    · show pyRound2 total_dist = pyRound2 (sumEdgeWeights G geom)
      rw [ht, hg]
    · show pyRound2 (if 0 < total_dist then safe_score / total_dist else 1) =
        pyRound2 (if 0 < sumEdgeWeights G geom
          then sumWeightedSafety G geom / sumEdgeWeights G geom else 1)
      rw [ht, hs, hg]
    · show ∀ p ∈ geom, get_edge_data G p.1 p.2 ≠ none
      rw [hg]
      exact hmem

theorem get_safest_route_found (G : Graph) (clinics : Option (List ClinicGeom))
    (slat slon : ℚ) (week : ℤ) (risk : String) (r : RouteResult)
    (h : get_safest_route G clinics slat slon week risk = Except.ok (some r)) :
    ∃ path, reconstructRoute G (is_high_risk_of week risk) path = Except.ok r := by
  simp only [get_safest_route] at h
  split at h
  · exact absurd h (by simp)
  · rename_i cls
    split at h
    · exact absurd h (by simp)
    · rename_i c0 cr hmap
      split at h
      · exact absurd h (by simp)
      · exact absurd h (by simp)
      · rename_i path hsp
        split at h
        · exact absurd h (by simp)
        · rename_i r' hrec
          have hr : r' = r := by
            injection h with h1
            injection h1
          subst hr
          exact ⟨path, hrec⟩

/-! ### The graph cache (claim C7) -/

/-- The persisted form of a graph. -/
structure CacheBlob where
  nodes : List Node
  edges : List (Node × Node × EdgeData)
deriving DecidableEq

/-- Modelled from the spec: the repository delegates graph persistence to
`pickle.dump` of the whole `networkx` graph object (route_engine.py:59-60);
the serialisation logic itself lives in the Python standard library, outside
`src/`.  Per the specification's GraphCache contract the saved form records
the node set, edge set and per-edge attributes exactly. -/
def cache_save (G : Graph) : CacheBlob := ⟨G.nodes, G.edges⟩

/-- Modelled from the spec: `pickle.load` of the cache blob
(route_engine.py:19-20) reconstructs the graph exactly. -/
def cache_load (b : CacheBlob) : Graph := ⟨b.nodes, b.edges⟩

/-- C7: loading a saved graph is the identity — node set, edge set and
per-edge attributes round-trip exactly. -/
theorem c7_cache_roundtrip (G : Graph) : cache_load (cache_save G) = G := rfl

/-! ### Claim C1: the edge cost function -/

/-- C1 (counterexample): the claim says the high-risk edge cost is
`length * safety_factor^2`; on the edge with `weight = 1`,
`safety_factor = 1.8` and a high-risk query (week 30, risk "high") the code
computes `1 * 1.8^3 = 5.832`, not `1 * 1.8^2 = 3.24`. -/
theorem c1_counterexample :
    is_high_risk_of 30 "high" = true ∧
    weight_func (is_high_risk_of 30 "high") ⟨1, 9/5⟩ ≠ 1 * (9/5 : ℚ) ^ 2 := by
  have h : is_high_risk_of 30 "high" = true := by decide
  refine ⟨h, ?_⟩
  rw [h]
  norm_num [weight_func]

/-- C1 (amended): the edge cost used by the search is
`length * safety_factor^3` (cubed, not squared) when the query is high-risk,
and `length * safety_factor` otherwise; a query is high-risk exactly when the
risk indicator equals "high" case-insensitively or the week is ≥ 28. -/
theorem c1_edge_cost (week : ℤ) (risk_level : String) (d : EdgeData) :
    weight_func (is_high_risk_of week risk_level) d =
      if strLower risk_level = "high" ∨ 28 ≤ week then
        d.weight * d.safety_factor ^ 3
      else d.weight * d.safety_factor := by
  unfold weight_func is_high_risk_of
  by_cases h1 : strLower risk_level = "high" <;>
    by_cases h2 : (28 : ℤ) ≤ week <;>
      simp [h1, h2]

/-! ### Claim C5: the classifier is total, policy-conformant and ≥ 1 -/

/-- C5: for every pair of tags the classifier returns exactly the
specification's policy value (first matching rule wins, case-insensitive
substring match on the surface tag, exact match on the road class), the
result is always ≥ 1, and absent or empty tags fall through to the unknown
default 1.2 without error. -/
theorem c5_classifier_policy :
    (∀ surface highway : String,
      get_safety_factor surface highway = classifySpec surface highway ∧
      1 ≤ get_safety_factor surface highway) ∧
    get_safety_factor "" "" = 6/5 ∧ get_safety_factor "nan" "none" = 6/5 := by
  refine ⟨?_, rfl, rfl⟩
  intro surface highway
  constructor
  · unfold get_safety_factor classifySpec surfaceRules roadClassRules
    cases h1 : containsAnyOf (strLower surface) ["paved", "asphalt", "concrete", "bitumen"] <;>
      cases h2 : containsAnyOf (strLower surface) ["gravel", "unpaved", "compacted", "fine_gravel"] <;>
        cases h3 : containsAnyOf (strLower surface) ["dirt", "earth", "ground", "mud", "sand"] <;>
          by_cases h4 : strLower highway ∈ (["primary", "secondary", "trunk", "motorway"] : List String) <;>
            by_cases h5 : strLower highway ∈ (["residential", "tertiary"] : List String) <;>
              by_cases h6 : strLower highway ∈ (["track", "path"] : List String) <;>
                simp [List.find?, h1, h2, h3, h4, h5, h6]
  · simp only [get_safety_factor]
    repeat' split <;> norm_num

/-! ### Claim C8: nearest-node lookup -/

/-- C8: `find_nearest_node` returns `None` exactly when the graph has no
nodes; otherwise it returns a node of the graph minimising the planar
squared distance `(node_lat-lat)^2 + (node_lon-lon)^2`, and it is the first
node of the iteration order attaining that minimum (every node listed before
it is strictly farther). -/
theorem c8_find_nearest_node (G : Graph) (lat lon : ℚ) :
    (find_nearest_node G lat lon = none ↔ G.nodes = []) ∧
    ∀ m, find_nearest_node G lat lon = some m →
      m ∈ G.nodes ∧ (∀ x ∈ G.nodes, nnKey lat lon m ≤ nnKey lat lon x) ∧
      ∃ l₁ l₂, G.nodes = l₁ ++ m :: l₂ ∧
        ∀ x ∈ l₁, nnKey lat lon m < nnKey lat lon x := by
  constructor
  · constructor
    · intro h
      by_contra hne
      obtain ⟨n, rest, hn⟩ := List.exists_cons_of_ne_nil hne
      rw [find_nearest_node, hn] at h
      exact absurd h (by simp)
    · intro h
      rw [find_nearest_node, h]
  · intro m hm
    rcases hn : G.nodes with _ | ⟨n, rest⟩
    · rw [find_nearest_node, hn] at hm
      exact absurd hm (by simp)
    · rw [find_nearest_node, hn] at hm
      have hm' : foldMinBy (nnKey lat lon) n rest = m := by
        injection hm
      obtain ⟨h1, h2, h3⟩ := foldMinBy_spec (nnKey lat lon) n rest
      rw [hm'] at h1 h2 h3
      exact ⟨h1, h2, h3⟩

/-! ### Claim C9: empty or absent destinations -/

/-- C9: with an absent (`None`) or empty clinic collection the router
returns `None` without raising, for every graph and query. -/
theorem c9_empty_destinations (G : Graph) (slat slon : ℚ) (week : ℤ)
    (risk : String) :
    get_safest_route G none slat slon week risk = Except.ok none ∧
    get_safest_route G (some []) slat slon week risk = Except.ok none :=
  ⟨rfl, rfl⟩

/-! ### Concrete instances used by counterexamples and witnesses -/

deriving instance DecidableEq for Except

/-- A constant stand-in for the haversine distance; none of the properties
settled on concrete graphs depend on the distance values. -/
def dOne : Node → Node → ℚ := fun _ _ => 1

/-- A disconnected four-node graph: one edge joins `(1,1)`–`(1,2)`, another
joins `(4,1)`–`(4,2)`; the two pairs are mutually unreachable. -/
def Gd : Graph :=
  ⟨[(1,1),(1,2),(4,1),(4,2)],
   [((1,1),(1,2),⟨1,1⟩), ((4,1),(4,2),⟨1,1⟩)]⟩

/-- Two clinics: the first (lat 1, lon 2.6) is straight-line closest to the
start `(lat 1, lon 1)` but its nearest graph node `(4,1)` is unreachable; the
second (lat 6, lon 1) is farther but resolves to the reachable node `(1,2)`. -/
def clinicsD : List ClinicGeom := [ClinicGeom.point 1 (13/5), ClinicGeom.point 6 1]

theorem route_d_eval :
    get_safest_route Gd (some clinicsD) 1 1 10 "low" = Except.ok none := by
  have hr : is_high_risk_of 10 "low" = false := by decide
  norm_num [get_safest_route, clinicsD, clinicCoord, foldMinBy,
    find_nearest_node, nnKey, hr,
    shortest_path, Gd, dijkstraCore, dijkstraAux, extractMinCost,
    relaxAll, neighborsOf, lookupCost, updateEntry, weight_func, edgeTouches,
    get_edge_data, Prod.mk.injEq, -Prod.mk_zero_zero, -Prod.mk_one_one]

/-- C2 (counterexample): on `Gd` with the two clinics of `clinicsD` the
router returns `None` — it only ever evaluates the single straight-line
closest clinic, whose nearest node `(4,1)` is unreachable — although the
second supplied destination resolves to node `(1,2)` and a path from the
start node to `(1,2)` exists.  This refutes both the "top 5 candidates"
ranking and "returns None only when no candidate yields a path". -/
theorem c2_counterexample :
    get_safest_route Gd (some clinicsD) 1 1 10 "low" = Except.ok none ∧
    find_nearest_node Gd 6 1 = some (1,2) ∧
    shortest_path Gd (weight_func (is_high_risk_of 10 "low"))
      (find_nearest_node Gd 1 1) (some (1,2)) =
      Except.ok (some [(1,1),(1,2)]) := by
  refine ⟨route_d_eval, ?_, ?_⟩
  · norm_num [find_nearest_node, Gd, foldMinBy, nnKey,
      Prod.mk.injEq, -Prod.mk_zero_zero, -Prod.mk_one_one]
  · norm_num [find_nearest_node, nnKey, foldMinBy,
      shortest_path, Gd, dijkstraCore, dijkstraAux, extractMinCost,
      relaxAll, neighborsOf, lookupCost, updateEntry, weight_func, edgeTouches,
      get_edge_data, Prod.mk.injEq, -Prod.mk_zero_zero, -Prod.mk_one_one]

/-- C2 (amended): the router considers only the single destination with
minimum straight-line squared distance to the start point (Python `min`,
first wins ties): routing with the full destination list gives exactly the
same result as routing with that one destination alone.  In particular it
returns `None` whenever that single candidate yields no path, even if
another supplied destination is reachable. -/
theorem c2_single_candidate (G : Graph) (slat slon : ℚ) (week : ℤ)
    (risk : String) (c : ClinicGeom) (cs : List ClinicGeom) :
    get_safest_route G (some (c :: cs)) slat slon week risk =
      get_safest_route G (some [ClinicGeom.point
        (foldMinBy (fun p => (p.1 - slat) ^ 2 + (p.2 - slon) ^ 2)
          (clinicCoord c) (cs.map clinicCoord)).1
        (foldMinBy (fun p => (p.1 - slat) ^ 2 + (p.2 - slon) ^ 2)
          (clinicCoord c) (cs.map clinicCoord)).2]) slat slon week risk := by
  simp only [get_safest_route, List.map, clinicCoord, foldMinBy, List.foldl_nil]

/-! ### Claim C3: no coordinate rounding during graph construction -/

/-- First input polyline for the rounding counterexample. -/
def seg3a : RoadSegment :=
  ⟨some (Geometry.lineString [(1,1),(2,2)]), "asphalt", "primary"⟩

/-- Second input polyline: shares the endpoint `(2,2)` of `seg3a` only up to
the 6th decimal digit (its copy is `(2, 2 + 10⁻⁷)`). -/
def seg3b : RoadSegment :=
  ⟨some (Geometry.lineString [(2, 2 + 1/10000000),(3,3)]), "asphalt", "primary"⟩

theorem build3_eval : build_graph dOne [seg3a, seg3b] =
    Except.ok ⟨[(1,1),(2,2)], [((1,1),(2,2),⟨1,1⟩)]⟩ := by
  have hsf : get_safety_factor "asphalt" "primary" = 1 := rfl
  norm_num [build_graph, insertAll, insertSegment, seg3a, seg3b, addEdge,
    addNode, edgeTouches, dOne, hsf, component, componentAux, compStep, Adj,
    connected_components, connectedCompsAux, maxByLenD, foldMinBy,
    inducedSubgraph, Prod.mk.injEq, -Prod.mk_zero_zero, -Prod.mk_one_one,
    List.zip, List.filter, List.any]

/-- C3 (counterexample): the two polylines share an endpoint up to the 6th
decimal digit (`(2,2)` versus `(2, 2+10⁻⁷)`, whose 6-digit rounding is
`(2,2)`), yet the insertion phase creates four distinct nodes — the vertices
are not rounded and do not collapse to one node — and the final graph then
keeps only the first two-node component. -/
theorem c3_counterexample :
    (insertAll dOne [seg3a, seg3b]).nodes =
      [(1,1),(2,2),(2, 2 + 1/10000000),(3,3)] ∧
    round6 (2 + 1/10000000) = 2 ∧
    ((2 : ℚ), 2 + (1 : ℚ)/10000000) ≠ ((2 : ℚ), (2 : ℚ)) ∧
    build_graph dOne [seg3a, seg3b] =
      Except.ok ⟨[(1,1),(2,2)], [((1,1),(2,2),⟨1,1⟩)]⟩ := by
  refine ⟨?_, ?_, ?_, build3_eval⟩
  · have hsf : get_safety_factor "asphalt" "primary" = 1 := rfl
    norm_num [insertAll, insertSegment, seg3a, seg3b, addEdge, addNode,
      edgeTouches, dOne, hsf, Prod.mk.injEq, -Prod.mk_zero_zero,
      -Prod.mk_one_one, List.zip]
  · have hfd : Int.fdiv 20000001 10 = 2000000 := by decide
    norm_num [round6, pyRoundN, roundHalfEven, ratFloor, hfd]
  · simp only [ne_eq, Prod.mk.injEq, not_and]
    intro _
    norm_num

/-- C3 (amended): graph nodes are input vertices taken verbatim — every node
of a graph returned by the builder is exactly (unrounded) a vertex of some
input polyline; nearby-but-unequal endpoint coordinates therefore stay
distinct nodes. -/
theorem c3_vertices_verbatim (dist : Node → Node → ℚ) (segs : List RoadSegment)
    (G : Graph) (h : build_graph dist segs = Except.ok G) :
    ∀ n ∈ G.nodes, ∃ s ∈ segs, ∃ cs,
      s.geometry = some (Geometry.lineString cs) ∧ n ∈ cs := by
  intro n hn
  simp only [build_graph] at h
  split at h
  · exact absurd h (by simp)
  · split at h
    · have hGeq : insertAll dist segs = G := by injection h
      rw [← hGeq] at hn
      exact insertAll_nodes_mem dist segs n hn
    · have hGeq : inducedSubgraph (insertAll dist segs)
          (maxByLenD (connected_components (insertAll dist segs))) = G := by
        injection h
      rw [← hGeq] at hn
      rw [induced_nodes_mem] at hn
      exact insertAll_nodes_mem dist segs n hn.1

theorem c3_witness :
    ∃ s ∈ [seg3a, seg3b], ∃ cs,
      s.geometry = some (Geometry.lineString cs) ∧ ((2 : ℚ), (2 : ℚ)) ∈ cs :=
  c3_vertices_verbatim dOne [seg3a, seg3b]
    ⟨[(1,1),(2,2)], [((1,1),(2,2),⟨1,1⟩)]⟩ build3_eval
    ((2 : ℚ), (2 : ℚ)) (by norm_num)

/-! ### Claim C4: no segment is prepended for the literal query point -/

/-- A two-node graph with a single edge of weight 7. -/
def Gc4 : Graph := ⟨[(1,1),(1,2)], [((1,1),(1,2),⟨7,1⟩)]⟩

/-- The route found for this query: geometry exactly the one graph edge,
distance exactly its weight. -/
def r4 : RouteResult := ⟨[((1,1),(1,2))], 7, 1, false⟩

theorem route4_eval :
    get_safest_route Gc4 (some [ClinicGeom.point 2 1]) (3/2) (3/2) 10 "low" =
      Except.ok (some r4) := by
  have hfd : Int.fdiv 700 1 = 700 := by decide
  have hfd2 : Int.fdiv 100 1 = 100 := by decide
  have hr : is_high_risk_of 10 "low" = false := by decide
  norm_num [get_safest_route, clinicCoord, foldMinBy,
    find_nearest_node, nnKey, hr, r4,
    shortest_path, Gc4, dijkstraCore, dijkstraAux, extractMinCost,
    relaxAll, neighborsOf, lookupCost, updateEntry, weight_func, edgeTouches,
    get_edge_data, reconstructRoute, accumPath, pyRound2, pyRoundN,
    roundHalfEven, ratFloor, hfd, hfd2, List.zip,
    Prod.mk.injEq, -Prod.mk_zero_zero, -Prod.mk_one_one]

/-- C4 (counterexample): the query point (lat 3/2, lon 3/2) differs from the
path's first node `(1,1)`, yet the reported geometry is exactly the one
graph edge `(1,1)`–`(1,2)` — no extra segment from the literal query point
is prepended — and the reported total distance is exactly the edge weight 7,
with no query-point-to-first-node length added. -/
theorem c4_counterexample :
    get_safest_route Gc4 (some [ClinicGeom.point 2 1]) (3/2) (3/2) 10 "low" =
      Except.ok (some r4) ∧
    find_nearest_node Gc4 (3/2) (3/2) = some (1,1) ∧
    ((1 : ℚ), (1 : ℚ)) ≠ ((3/2 : ℚ), (3/2 : ℚ)) ∧
    r4.route = [((1,1),(1,2))] ∧ r4.distance_meters = 7 := by
  refine ⟨route4_eval, ?_, ?_, rfl, rfl⟩
  · norm_num [find_nearest_node, Gc4, foldMinBy, nnKey,
      Prod.mk.injEq, -Prod.mk_zero_zero, -Prod.mk_one_one]
  · simp only [ne_eq, Prod.mk.injEq, not_and]
    intro h
    norm_num

/-- C4 (amended): nothing is ever prepended — for every query that finds a
route, every segment of the returned geometry is an actual graph edge, the
reported total distance is `round(·, 2)` of the sum of exactly those edges'
stored weights, and the reported safety average is the distance-weighted
mean over exactly those edges (1.0 when their total length is zero). -/
theorem c4_route_only_graph_edges (G : Graph) (clinics : Option (List ClinicGeom))
    (slat slon : ℚ) (week : ℤ) (risk : String) (r : RouteResult)
    (h : get_safest_route G clinics slat slon week risk = Except.ok (some r)) :
    (∀ p ∈ r.route, get_edge_data G p.1 p.2 ≠ none) ∧
    r.distance_meters = pyRound2 (sumEdgeWeights G r.route) ∧
    r.avg_safety_factor = pyRound2 (if 0 < sumEdgeWeights G r.route
      then sumWeightedSafety G r.route / sumEdgeWeights G r.route else 1) := by
  obtain ⟨path, hrec⟩ := get_safest_route_found G clinics slat slon week risk r h
  obtain ⟨hg, ht, hs, _, hmem⟩ := reconstructRoute_ok G _ path r hrec
  exact ⟨hmem, ht, hs⟩

theorem c4_witness :
    (∀ p ∈ r4.route, get_edge_data Gc4 p.1 p.2 ≠ none) ∧
    r4.distance_meters = pyRound2 (sumEdgeWeights Gc4 r4.route) ∧
    r4.avg_safety_factor = pyRound2 (if 0 < sumEdgeWeights Gc4 r4.route
      then sumWeightedSafety Gc4 r4.route / sumEdgeWeights Gc4 r4.route else 1) :=
  c4_route_only_graph_edges Gc4 (some [ClinicGeom.point 2 1]) (3/2) (3/2)
    10 "low" r4 route4_eval

/-! ### Claim C10: the zero-length guard in the safety average -/

/-- The zero-length route found when start and destination resolve to the
same node. -/
def r10 : RouteResult := ⟨[], 0, 1, false⟩

theorem route10_eval :
    get_safest_route Gc4 (some [ClinicGeom.point 1 1]) 1 1 10 "low" =
      Except.ok (some r10) := by
  have hfd : Int.fdiv 0 1 = 0 := by decide
  have hfd2 : Int.fdiv 100 1 = 100 := by decide
  have hr : is_high_risk_of 10 "low" = false := by decide
  norm_num [get_safest_route, clinicCoord, foldMinBy,
    find_nearest_node, nnKey, hr, r10,
    shortest_path, Gc4, dijkstraCore, dijkstraAux, extractMinCost,
    relaxAll, neighborsOf, lookupCost, updateEntry, weight_func, edgeTouches,
    get_edge_data, reconstructRoute, accumPath, pyRound2, pyRoundN,
    roundHalfEven, ratFloor, hfd, hfd2, List.zip,
    Prod.mk.injEq, -Prod.mk_zero_zero, -Prod.mk_one_one]

/-- C10: the safety-average computation never divides by zero — whenever a
route is found whose edges sum to total length 0 (for example, start and
destination resolve to the same node and the path has no edges), the guarded
branch is taken and the reported `avg_safety_factor` is exactly 1.0. -/
theorem c10_zero_distance_avg (G : Graph) (clinics : Option (List ClinicGeom))
    (slat slon : ℚ) (week : ℤ) (risk : String) (r : RouteResult)
    (h : get_safest_route G clinics slat slon week risk = Except.ok (some r))
    (hz : sumEdgeWeights G r.route = 0) :
    r.avg_safety_factor = 1 := by
  obtain ⟨path, hrec⟩ := get_safest_route_found G clinics slat slon week risk r h
  obtain ⟨hg, ht, hs, _, hmem⟩ := reconstructRoute_ok G _ path r hrec
  have hfd : Int.fdiv 100 1 = 100 := by decide
  rw [hs, hz]
  norm_num [pyRound2, pyRoundN, roundHalfEven, ratFloor, hfd]

theorem c10_witness : r10.avg_safety_factor = 1 :=
  c10_zero_distance_avg Gc4 (some [ClinicGeom.point 1 1]) 1 1 10 "low" r10
    route10_eval (by norm_num [sumEdgeWeights, r10])

/-! ### Witnesses for claims C6 and C8 -/

/-- Input segments forming two clusters, of 3 and 2 nodes. -/
def segs6 : List RoadSegment :=
  [⟨some (Geometry.lineString [(1,1),(1,2),(1,3)]), "asphalt", "primary"⟩,
   ⟨some (Geometry.lineString [(5,5),(5,6)]), "asphalt", "primary"⟩]

/-- The expected build result: exactly the 3-node cluster. -/
def G6 : Graph :=
  ⟨[(1,1),(1,2),(1,3)],
   [((1,1),(1,2),⟨1,1⟩), ((1,2),(1,3),⟨1,1⟩)]⟩

theorem c6_witness :
    (∀ u ∈ G6.nodes, ∀ w ∈ G6.nodes, Reaches G6 u w) ∧
    ∃ root ∈ (insertAll dOne segs6).nodes,
      G6 = inducedSubgraph (insertAll dOne segs6)
            (component (insertAll dOne segs6) root) ∧
      ∀ w ∈ (insertAll dOne segs6).nodes,
        (component (insertAll dOne segs6) w).length ≤ G6.nodes.length :=
  c6_build_graph_largest_component dOne segs6 G6 (by decide)

/-- A two-node, zero-edge graph for the nearest-node witness. -/
def Gw8 : Graph := ⟨[(1,1),(5,5)], []⟩

theorem c8_witness :
    find_nearest_node Gw8 100 100 = some (5,5) ∧
    ((5 : ℚ), (5 : ℚ)) ∈ Gw8.nodes := by
  have heval : find_nearest_node Gw8 100 100 = some (5,5) := by
    norm_num [find_nearest_node, Gw8, foldMinBy, nnKey,
      Prod.mk.injEq, -Prod.mk_zero_zero, -Prod.mk_one_one]
  exact ⟨heval, ((c8_find_nearest_node Gw8 100 100).2 (5,5) heval).1⟩
